import Mathlib

/-!
Verification of the swizzy-kit wizard engine against its specification.

The definitions below are a shallow embedding of the TypeScript sources:
- the tagged-field parsers (batch `parseXmlToJson` / `parseXmlElementWithTagCategory`
  and the streaming parser built by `createStreamingXmlParser`) from the wizard
  class file,
- the flow-control run loop pieces (`executeParallelSteps`, the retry path of
  `executeStep`, `handleFlowControlSignal`),
- the bungee fan-out executor (`executeBungeePlan`, `launchBungeeWorker`),
- the validation/repair pipeline of `generateStepData`.

Strings are modelled as `List Char`.  JavaScript regular-expression matching is
modelled by hand-written scanning functions whose behaviour is derived from the
backtracking semantics of the concrete patterns in the source.  Fallible
JavaScript code (throwing) is modelled with `Option` / `Except`.  Recursion that
is structural in the source but not syntactically structural here uses an
explicit fuel argument; top-level wrappers supply fuel that provably suffices.
-/

/-! ### Character classes used by the JavaScript regexes and string functions -/

/-- Backslash character (escape handling in array parsing). -/
def backslashChar : Char := Char.ofNat 92

/-- Single-quote character. -/
def squoteChar : Char := Char.ofNat 39

/-- Double-quote character. -/
def dquoteChar : Char := Char.ofNat 34

/-- Opening curly bracket (written via its code point). -/
def lcurly : Char := Char.ofNat 123

/-- Closing curly bracket (written via its code point). -/
def rcurly : Char := Char.ofNat 125

/-- JavaScript regex `\w`: ASCII letters, digits and underscore. -/
def isWordChar (c : Char) : Bool :=
  c.isAlpha || c.isDigit || c = '_'

/-- JavaScript regex `\s` restricted to the ASCII whitespace characters
(space, tab, newline, carriage return, vertical tab, form feed).  The Unicode
space characters that JavaScript also accepts do not occur in any input
considered here. -/
def isJsSpace (c : Char) : Bool :=
  c = ' ' || c = Char.ofNat 9 || c = Char.ofNat 10 || c = Char.ofNat 13 ||
  c = Char.ofNat 11 || c = Char.ofNat 12

/-- ASCII lower-casing, as performed by `toLowerCase` on the inputs in scope. -/
def asciiLower (c : Char) : Char :=
  if 'A' ≤ c ∧ c ≤ 'Z' then Char.ofNat (c.toNat + 32) else c

/-- Case-insensitive character comparison (for `/i`-flagged regexes). -/
def charEqCI (a b : Char) : Bool :=
  asciiLower a = asciiLower b

/-- Character comparison switchable between case-sensitive and
case-insensitive, selecting between the `/i`-flagged and unflagged regex
literals of the source. -/
def charEqMode (ci : Bool) (a b : Char) : Bool :=
  if ci then charEqCI a b else a = b

/-! ### List-of-characters utilities (JavaScript string primitives) -/

/-- Test that `p` occurs at the head of `s` (character-wise equality). -/
def startsWithL : List Char → List Char → Bool
  | [], _ => true
  | _ :: _, [] => false
  | p :: ps, c :: cs => p = c && startsWithL ps cs

/-- Test that `p` occurs at the head of `s`, comparing with `charEqMode ci`. -/
def startsWithMode (ci : Bool) : List Char → List Char → Bool
  | [], _ => true
  | _ :: _, [] => false
  | p :: ps, c :: cs => charEqMode ci p c && startsWithMode ci ps cs

/-- Index of the first occurrence of `pat` in `s` (JavaScript `indexOf`,
returning `none` instead of `-1`). -/
def firstIndexOfSub : List Char → List Char → Option Nat
  | [], pat => if startsWithL pat [] then some 0 else none
  | c :: cs, pat =>
    if startsWithL pat (c :: cs) then some 0
    else (firstIndexOfSub cs pat).map (· + 1)

/-- Substring containment (JavaScript `includes`). -/
def containsSub (s pat : List Char) : Bool :=
  (firstIndexOfSub s pat).isSome

/-- Case-insensitive/configurable substring containment used by the regex
models. -/
def containsSubMode (ci : Bool) (s pat : List Char) : Bool :=
  startsWithMode ci pat s ||
    match s with
    | [] => false
    | _ :: cs => containsSubMode ci cs pat

/-- JavaScript `trimEnd` for the ASCII whitespace of `isJsSpace`. -/
def jsTrimEnd (s : List Char) : List Char :=
  (s.reverse.dropWhile isJsSpace).reverse

/-- JavaScript `trimStart` for the ASCII whitespace of `isJsSpace`. -/
def jsTrimStart (s : List Char) : List Char :=
  s.dropWhile isJsSpace

/-- JavaScript `trim`. -/
def jsTrim (s : List Char) : List Char :=
  jsTrimEnd (jsTrimStart s)

/-- Drop a suffix when present (used for stripping optional closing tags). -/
def dropSuffixIfPresent (s suf : List Char) : List Char :=
  if suf.length ≤ s.length ∧ startsWithL suf (s.drop (s.length - suf.length)) then
    s.take (s.length - suf.length)
  else s

/-! ### Lemmas about substring search -/

theorem startsWithL_append (p s t : List Char) (h : startsWithL p s = true) :
    startsWithL p (s ++ t) = true := by
  induction p generalizing s with
  | nil => simp [startsWithL]
  | cons a ps ih =>
    cases s with
    | nil => simp [startsWithL] at h
    | cons c cs =>
      simp only [startsWithL, Bool.and_eq_true] at h ⊢
      exact ⟨h.1, ih cs h.2⟩

theorem startsWithL_length_le (p s : List Char) (h : startsWithL p s = true) :
    p.length ≤ s.length := by
  induction p generalizing s with
  | nil => simp
  | cons a ps ih =>
    cases s with
    | nil => simp [startsWithL] at h
    | cons c cs =>
      simp only [startsWithL, Bool.and_eq_true] at h
      simpa [Nat.succ_le_succ_iff] using ih cs h.2

theorem startsWithL_of_append (p u v : List Char)
    (h : startsWithL p (u ++ v) = true) (hle : p.length ≤ u.length) :
    startsWithL p u = true := by
  induction p generalizing u with
  | nil => simp [startsWithL]
  | cons a ps ih =>
    cases u with
    | nil => simp at hle
    | cons c cs =>
      simp only [List.cons_append, startsWithL, Bool.and_eq_true] at h ⊢
      exact ⟨h.1, ih cs h.2 (Nat.succ_le_succ_iff.mp (by simpa using hle))⟩

theorem firstIndexOfSub_bound (s pat : List Char) (i : Nat)
    (h : firstIndexOfSub s pat = some i) : i + pat.length ≤ s.length := by
  induction s generalizing i with
  | nil =>
    rw [firstIndexOfSub] at h
    by_cases hs : startsWithL pat [] = true
    · rw [if_pos hs] at h
      cases h
      simpa using startsWithL_length_le pat [] hs
    · rw [if_neg hs] at h
      cases h
  | cons c cs ih =>
    rw [firstIndexOfSub] at h
    by_cases hs : startsWithL pat (c :: cs) = true
    · rw [if_pos hs] at h
      cases h
      simpa using startsWithL_length_le pat (c :: cs) hs
    · rw [if_neg hs] at h
      simp only [Option.map_eq_some'] at h
      obtain ⟨j, hj, rfl⟩ := h
      have := ih j hj
      simpa [List.length_cons, Nat.add_right_comm] using Nat.add_le_add_right this 1

theorem firstIndexOfSub_append (s t pat : List Char) (i : Nat)
    (h : firstIndexOfSub s pat = some i) :
    firstIndexOfSub (s ++ t) pat = some i := by
  induction s generalizing i with
  | nil =>
    rw [firstIndexOfSub] at h
    by_cases hs : startsWithL pat [] = true
    · rw [if_pos hs] at h
      cases t with
      | nil => simpa [firstIndexOfSub, hs] using h
      | cons d ds =>
        have hs' : startsWithL pat (d :: ds) = true := by
          simpa using startsWithL_append pat [] (d :: ds) hs
        simpa [firstIndexOfSub, hs'] using h
    · rw [if_neg hs] at h
      cases h
  | cons c cs ih =>
    rw [firstIndexOfSub] at h
    by_cases hs : startsWithL pat (c :: cs) = true
    · rw [if_pos hs] at h
      have hs' : startsWithL pat (c :: (cs ++ t)) = true := by
        simpa using startsWithL_append pat (c :: cs) t hs
      simpa [firstIndexOfSub, hs'] using h
    · rw [if_neg hs] at h
      simp only [Option.map_eq_some'] at h
      obtain ⟨j, hj, rfl⟩ := h
      have hbound : pat.length ≤ cs.length :=
        Nat.le_trans (Nat.le_add_left _ _) (firstIndexOfSub_bound cs pat j hj)
      have hs' : ¬ startsWithL pat (c :: (cs ++ t)) = true := by
        intro hcontra
        exact hs (startsWithL_of_append pat (c :: cs) t
          (by simpa using hcontra)
          (by simpa using Nat.le_succ_of_le hbound))
      have : firstIndexOfSub (c :: (cs ++ t)) pat =
          (firstIndexOfSub (cs ++ t) pat).map (· + 1) := by
        rw [firstIndexOfSub, if_neg hs']
      simp [this, ih j hj]

theorem containsSub_append (s t pat : List Char) (h : containsSub s pat = true) :
    containsSub (s ++ t) pat = true := by
  unfold containsSub at h ⊢
  obtain ⟨i, hi⟩ := Option.isSome_iff_exists.mp h
  rw [firstIndexOfSub_append s t pat i hi]
  rfl

theorem containsSub_of_append_left (s t pat : List Char)
    (h : containsSub (s ++ t) pat = false) : containsSub s pat = false := by
  by_contra hc
  have := containsSub_append s t pat (by
    cases hcs : containsSub s pat
    · exact absurd hcs hc
    · rfl)
  rw [this] at h
  cases h

theorem containsSub_nonempty (s pat : List Char) (hp : pat ≠ [])
    (h : containsSub s pat = true) : s ≠ [] := by
  intro hs
  subst hs
  unfold containsSub firstIndexOfSub at h
  cases pat with
  | nil => exact hp rfl
  | cons a ps => simp [startsWithL] at h

/-! ### JavaScript values

One value universe for everything the parsers produce.  Numeric results keep
their source literal (`jnum`): JavaScript number normalisation (e.g. `1e1`
versus `10`) is floating-point behaviour that no claim depends on, and no
theorem below compares two numeric values with distinct literals. -/

/-- JavaScript value produced by the parsers. -/
inductive JsValue where
  | jnull : JsValue
  | jbool : Bool → JsValue
  | jnum : List Char → JsValue
  | jstr : List Char → JsValue
  | jarr : List JsValue → JsValue
  | jobj : List (List Char × JsValue) → JsValue

open JsValue

/-! ### Model of the wizard field-tag regex

The source pattern is
`<(\w+)\s+([^>]*tag-category=["']wizard["'][^>]*)>` with flags `gi`
(`WIZARD_TAG_PATTERN`), and the same pattern appears inline without flags in
`createStreamingXmlParser`.  Because `[^>]` cannot cross a `>`, a match
starting at a position `p` is possible exactly when `p` holds `<`, a maximal
nonempty `\w+` run follows, then one whitespace character, and the stretch up
to the first subsequent `>` contains the `tag-category=["']wizard["']`
literal.  Group 2 starts after the maximal whitespace run.  The `ci` flag
selects between the `/i`-flagged and the unflagged literal. -/

/-- Literal `tag-category=` of the wizard tag regex. -/
def tagCategoryLit : List Char := "tag-category=".toList

/-- Literal `wizard` of the wizard tag regex. -/
def wizardLit : List Char := "wizard".toList

/-- Quote character class `["']` of the wizard tag regex. -/
def isQuoteChar (c : Char) : Bool := c = dquoteChar || c = squoteChar

/-- Test for `tag-category=["']wizard["']` at the head of `s`. -/
def wizardAttrHere (ci : Bool) (s : List Char) : Bool :=
  startsWithMode ci tagCategoryLit s &&
    (match s.drop tagCategoryLit.length with
     | q1 :: r1 =>
       isQuoteChar q1 && startsWithMode ci wizardLit r1 &&
         (match r1.drop wizardLit.length with
          | q2 :: _ => isQuoteChar q2
          | [] => false)
     | [] => false)

/-- Test for `tag-category=["']wizard["']` anywhere in `s`. -/
def containsWizardAttr (ci : Bool) : List Char → Bool
  | [] => false
  | c :: cs => wizardAttrHere ci (c :: cs) || containsWizardAttr ci cs

/-- Attempt to match the wizard field-tag regex at the head of `s`; on
success returns the tag name (group 1), the attribute text (group 2) and the
full match length. -/
def tagMatchHere (ci : Bool) (s : List Char) : Option (List Char × List Char × Nat) :=
  match s with
  | '<' :: rest =>
    let tagName := rest.takeWhile isWordChar
    if tagName.isEmpty then none
    else
      let afterName := rest.drop tagName.length
      match afterName with
      | c :: _ =>
        if isJsSpace c then
          let seg := afterName.takeWhile (fun ch => ch ≠ '>')
          -- a `>` exists iff the takeWhile stopped before the end
          if seg.length < afterName.length && containsWizardAttr ci seg then
            some (tagName, seg.dropWhile isJsSpace, 1 + tagName.length + seg.length + 1)
          else none
        else none
      | [] => none
  | _ => none

/-- First match of the wizard field-tag regex in `s`: position, tag name,
attribute text, full match length (the semantics of a non-global `match` /
the first `exec`). -/
def firstTagMatch (ci : Bool) : List Char → Option (Nat × List Char × List Char × Nat)
  | [] => none
  | c :: cs =>
    match tagMatchHere ci (c :: cs) with
    | some (n, a, len) => some (0, n, a, len)
    | none => (firstTagMatch ci cs).map (fun r => (r.1 + 1, r.2))

/-- Model of the anchored pattern
`<\w+\s+[^>]*tag-category=["']wizard["'][^>]*$` (case-sensitive, used by the
streaming parser to hold back a suspected truncated tag at the end of the
buffer): some position holds `<`, a nonempty word run, one whitespace, and
from there to the end of the buffer there is no `>` and the wizard literal
occurs. -/
def truncatedTagHere (s : List Char) : Bool :=
  match s with
  | '<' :: rest =>
    let tagName := rest.takeWhile isWordChar
    if tagName.isEmpty then false
    else
      match rest.drop tagName.length with
      | c :: _ =>
        let afterName := rest.drop tagName.length
        isJsSpace c && afterName.all (fun ch => ch ≠ '>') &&
          containsWizardAttr false afterName
      | [] => false
  | _ => false

/-- Anchored truncated-tag test anywhere in the buffer suffix. -/
def truncatedTagAtEnd : List Char → Bool
  | [] => false
  | c :: cs => truncatedTagHere (c :: cs) || truncatedTagAtEnd cs

/-- Literal `type=` of the type-attribute regex. -/
def typeLit : List Char := "type=".toList

/-- Attempt to match `type=["']([^"']+)["']` at the head of `s`, returning the
captured type text.  The quote class excludes both quote characters, so the
capture is the maximal run up to the next quote, which must exist and be
nonempty. -/
def typeMatchHere (s : List Char) : Option (List Char) :=
  if startsWithL typeLit s then
    match s.drop typeLit.length with
    | q :: rest =>
      if isQuoteChar q then
        let val := rest.takeWhile (fun c => ¬ isQuoteChar c)
        if val.isEmpty then none
        else
          match rest.drop val.length with
          | _ :: _ => some val
          | [] => none
      else none
    | [] => none
  else none

/-- First match of the type-attribute regex in an attribute string
(`current.attributes.match(/type=["']([^"']+)["']/)`). -/
def extractTypeAttr : List Char → Option (List Char)
  | [] => none
  | c :: cs =>
    match typeMatchHere (c :: cs) with
    | some v => some v
    | none => extractTypeAttr cs

/-- Model of the loose detection pattern
`<\w+[^>]*tag-category=["']wizard["']` (case-sensitive `test`, used by
`inferAndParseValue`): a `<` followed by at least one word character, then a
stretch without `>` reaching an occurrence of the wizard literal. -/
def looseWizardTagHere (s : List Char) : Bool :=
  match s with
  | '<' :: c :: rest =>
    isWordChar c &&
      ((c :: rest).takeWhile (fun ch => ch ≠ '>') |> fun seg =>
        containsWizardAttr false (seg.drop 1))
  | _ => false

/-- Loose detection pattern anywhere in `s`. -/
def hasLooseWizardTag : List Char → Bool
  | [] => false
  | c :: cs => looseWizardTagHere (c :: cs) || hasLooseWizardTag cs

/-! ### Strict JSON parsing (model of `JSON.parse`)

Recursive-descent parser for the JSON grammar: the array strategies of
`parseArray` and the item parsing of `parseArrayItem` call `JSON.parse`.
The parser is strict: no trailing commas, double quotes only, JSON
whitespace only.  Numbers are kept as their source literal (see `JsValue`).
Recursion is fueled; `jsonParse` supplies fuel that always suffices because
every `value -> array/object -> value` round trip consumes a character. -/

/-- JSON whitespace: space, tab, line feed, carriage return. -/
def isJsonWs (c : Char) : Bool :=
  c = ' ' || c = Char.ofNat 9 || c = Char.ofNat 10 || c = Char.ofNat 13

/-- Skip JSON whitespace. -/
def skipJsonWs (s : List Char) : List Char := s.dropWhile isJsonWs

/-- Hexadecimal digit value. -/
def hexVal (c : Char) : Option Nat :=
  if c.isDigit then some (c.toNat - 48)
  else if 'a' ≤ c ∧ c ≤ 'f' then some (c.toNat - 87)
  else if 'A' ≤ c ∧ c ≤ 'F' then some (c.toNat - 55)
  else none

/-- Parse the body of a JSON string after the opening quote, returning the
decoded characters and the remaining input after the closing quote. -/
def parseJsonStringBody : Nat → List Char → Option (List Char × List Char)
  | 0, _ => none
  | _, [] => none
  | fuel + 1, c :: cs =>
    if c = dquoteChar then some ([], cs)
    else if c = backslashChar then
      match cs with
      | [] => none
      | e :: cs2 =>
        let esc : Option (Char × List Char) :=
          if e = dquoteChar then some (dquoteChar, cs2)
          else if e = backslashChar then some (backslashChar, cs2)
          else if e = '/' then some ('/', cs2)
          else if e = 'b' then some (Char.ofNat 8, cs2)
          else if e = 'f' then some (Char.ofNat 12, cs2)
          else if e = 'n' then some (Char.ofNat 10, cs2)
          else if e = 'r' then some (Char.ofNat 13, cs2)
          else if e = 't' then some (Char.ofNat 9, cs2)
          else if e = 'u' then
            match cs2 with
            | h1 :: h2 :: h3 :: h4 :: cs3 =>
              match hexVal h1, hexVal h2, hexVal h3, hexVal h4 with
              | some a, some b, some c3, some d =>
                some (Char.ofNat (((a * 16 + b) * 16 + c3) * 16 + d), cs3)
              | _, _, _, _ => none
            | _ => none
          else none
        match esc with
        | some (ch, rest) =>
          (parseJsonStringBody fuel rest).map (fun r => (ch :: r.1, r.2))
        | none => none
    else if c.toNat < 32 then none
    else (parseJsonStringBody fuel cs).map (fun r => (c :: r.1, r.2))

/-- Consume the digits of `s`. -/
def digitsOf (s : List Char) : List Char := s.takeWhile Char.isDigit

/-- Parse a JSON numeric literal, returning the literal text and the rest. -/
def parseJsonNumberLit (s : List Char) : Option (List Char × List Char) :=
  let signed : Bool := s.head? = some '-'
  let s1 := if signed then s.drop 1 else s
  let intPart := digitsOf s1
  if intPart.isEmpty then none
  else if intPart.length > 1 ∧ intPart.head? = some '0' then none
  else
    let s2 := s1.drop intPart.length
    let fracRes : Option (List Char × List Char) :=
      match s2 with
      | '.' :: r =>
        let ds := digitsOf r
        if ds.isEmpty then none else some ('.' :: ds, r.drop ds.length)
      | _ => some ([], s2)
    match fracRes with
    | none => none
    | some (fracPart, s3) =>
      let expRes : Option (List Char × List Char) :=
        match s3 with
        | e :: r =>
          if e = 'e' ∨ e = 'E' then
            let (signPart, r2) :=
              match r with
              | c :: r2 => if c = '+' ∨ c = '-' then ([c], r2) else ([], r)
              | [] => ([], r)
            let ds := digitsOf r2
            if ds.isEmpty then none
            else some (e :: (signPart ++ ds), r2.drop ds.length)
          else some ([], s3)
        | [] => some ([], s3)
      match expRes with
      | none => none
      | some (expPart, s4) =>
        some ((if signed then ['-'] else []) ++ intPart ++ fracPart ++ expPart, s4)

mutual

/-- Parse one JSON value (leading whitespace allowed), returning the value and
the remaining input. -/
def parseJsonValue : Nat → List Char → Option (JsValue × List Char)
  | 0, _ => none
  | fuel + 1, s =>
    match skipJsonWs s with
    | [] => none
    | c :: cs =>
      if c = dquoteChar then
        (parseJsonStringBody (cs.length + 1) cs).map (fun r => (jstr r.1, r.2))
      else if c = '[' then
        match skipJsonWs cs with
        | ']' :: r => some (jarr [], r)
        | s1 => (parseJsonArrayRest fuel s1).map (fun r => (jarr r.1, r.2))
      else if c = lcurly then
        match skipJsonWs cs with
        | d :: r =>
          if d = rcurly then some (jobj [], r)
          else (parseJsonObjRest fuel (d :: r)).map (fun r2 => (jobj r2.1, r2.2))
        | [] => none
      else if startsWithL "true".toList (c :: cs) then
        some (jbool true, (c :: cs).drop 4)
      else if startsWithL "false".toList (c :: cs) then
        some (jbool false, (c :: cs).drop 5)
      else if startsWithL "null".toList (c :: cs) then
        some (jnull, (c :: cs).drop 4)
      else
        (parseJsonNumberLit (c :: cs)).map (fun r => (jnum r.1, r.2))

/-- Parse the elements of a nonempty JSON array up to and including the
closing bracket. -/
def parseJsonArrayRest : Nat → List Char → Option (List JsValue × List Char)
  | 0, _ => none
  | fuel + 1, s =>
    match parseJsonValue fuel s with
    | none => none
    | some (v, r) =>
      match skipJsonWs r with
      | ',' :: r2 =>
        (parseJsonArrayRest fuel r2).map (fun res => (v :: res.1, res.2))
      | ']' :: r2 => some ([v], r2)
      | _ => none

/-- Parse the members of a nonempty JSON object up to and including the
closing bracket. -/
def parseJsonObjRest : Nat → List Char → Option (List (List Char × JsValue) × List Char)
  | 0, _ => none
  | fuel + 1, s =>
    match skipJsonWs s with
    | c :: cs =>
      if c = dquoteChar then
        match parseJsonStringBody (cs.length + 1) cs with
        | none => none
        | some (key, r) =>
          match skipJsonWs r with
          | ':' :: r2 =>
            match parseJsonValue fuel r2 with
            | none => none
            | some (v, r3) =>
              match skipJsonWs r3 with
              | ',' :: r4 =>
                (parseJsonObjRest fuel r4).map (fun res => ((key, v) :: res.1, res.2))
              | d :: r4 =>
                if d = rcurly then some ([(key, v)], r4) else none
              | [] => none
          | _ => none
      else none
    | [] => none

end

/-- Model of `JSON.parse`: parse one value and require only whitespace after
it. -/
def jsonParse (s : List Char) : Option JsValue :=
  match parseJsonValue (2 * s.length + 4) s with
  | some (v, r) => if skipJsonWs r = [] then some v else none
  | none => none

/-! ### The lenient cleanup of `parseArray` strategy 2

The source chains four global `replace` calls:
trailing commas before a closing bracket, single quotes to double quotes,
line comments, block comments.  Each is modelled with the left-to-right
scan-and-skip semantics of `String.replace` with a global regex (the
replacement is not rescanned). -/

/-- Length bound for `dropWhile`, used in termination arguments. -/
theorem dropWhileLen_le (p : Char → Bool) (l : List Char) :
    (l.dropWhile p).length ≤ l.length := by
  induction l with
  | nil => simp
  | cons c cs ih =>
    by_cases h : p c
    · simp only [List.dropWhile, h]
      exact Nat.le_trans ih (by simp)
    · simp [List.dropWhile, h]

/-- Replace `,(\s*[}\]])` by the captured group: drop a comma standing
directly before a closing bracket (possibly with whitespace between).  The
fuel is bounded by the input length, since every step consumes at least one
character. -/
def removeTrailingCommasGo : Nat → List Char → List Char
  | 0, s => s
  | _, [] => []
  | fuel + 1, c :: cs =>
    if c = ',' then
      let ws := cs.takeWhile isJsSpace
      match cs.drop ws.length with
      | b :: rest =>
        if b = rcurly ∨ b = ']' then ws ++ (b :: removeTrailingCommasGo fuel rest)
        else c :: removeTrailingCommasGo fuel cs
      | [] => c :: removeTrailingCommasGo fuel cs
    else c :: removeTrailingCommasGo fuel cs

/-- Trailing-comma removal with sufficient fuel. -/
def removeTrailingCommas (s : List Char) : List Char :=
  removeTrailingCommasGo (s.length + 1) s

/-- Replace every single quote by a double quote. -/
def normalizeQuotes (s : List Char) : List Char :=
  s.map (fun c => if c = squoteChar then dquoteChar else c)

/-- Remove `//` line comments (`\/\/.*$` with the `gm` flags): from each `//`
to the end of its line (the dot does not cross line terminators).  Fueled for
the same reason as `removeTrailingCommasGo`. -/
def removeLineCommentsGo : Nat → List Char → List Char
  | 0, s => s
  | _, [] => []
  | fuel + 1, '/' :: '/' :: rest =>
    removeLineCommentsGo fuel
      (rest.dropWhile (fun c => c ≠ Char.ofNat 10 ∧ c ≠ Char.ofNat 13))
  | fuel + 1, c :: cs => c :: removeLineCommentsGo fuel cs

/-- Line-comment removal with sufficient fuel. -/
def removeLineComments (s : List Char) : List Char :=
  removeLineCommentsGo (s.length + 1) s

/-- Remove `/* ... */` block comments (lazy, global).  Fueled for the same
reason as `removeTrailingCommasGo`. -/
def removeBlockCommentsGo : Nat → List Char → List Char
  | 0, s => s
  | _, [] => []
  | fuel + 1, '/' :: '*' :: rest =>
    (match firstIndexOfSub rest ['*', '/'] with
     | some i => removeBlockCommentsGo fuel (rest.drop (i + 2))
     | none => '/' :: removeBlockCommentsGo fuel ('*' :: rest))
  | fuel + 1, c :: cs => c :: removeBlockCommentsGo fuel cs

/-- Block-comment removal with sufficient fuel. -/
def removeBlockComments (s : List Char) : List Char :=
  removeBlockCommentsGo (s.length + 1) s

/-- Strategy 2 of `parseArray`: the chained cleanup replacements, in source
order. -/
def lenientArrayFix (s : List Char) : List Char :=
  removeBlockComments (removeLineComments (normalizeQuotes (removeTrailingCommas s)))

/-! ### Type coercion helpers of the tagged-field parser -/

/-- Exponent tail of a JavaScript decimal literal; returns the rest after a
valid (or absent) exponent. -/
def jsDecTail (s : List Char) : Option (List Char) :=
  match s with
  | e :: r =>
    if e = 'e' ∨ e = 'E' then
      let r2 :=
        match r with
        | c :: rr => if c = '+' ∨ c = '-' then rr else r
        | [] => r
      let ds := digitsOf r2
      if ds.isEmpty then none else some (r2.drop ds.length)
    else some s
  | [] => some []

/-- Recognizer for JavaScript decimal numeric literals:
`[+-]? ( digits ('.' digits*)? | '.' digits+ ) ([eE][+-]?digits+)?`. -/
def isJsNumericLiteral (s : List Char) : Bool :=
  let s1 :=
    match s with
    | c :: cs => if c = '+' ∨ c = '-' then cs else s
    | [] => s
  let ip := digitsOf s1
  let s2 := s1.drop ip.length
  match s2 with
  | '.' :: r =>
    let fs := digitsOf r
    if ip.isEmpty ∧ fs.isEmpty then false
    else
      match jsDecTail (r.drop fs.length) with
      | some [] => true
      | _ => false
  | _ =>
    if ip.isEmpty then false
    else
      match jsDecTail s2 with
      | some [] => true
      | _ => false

/-- Model of `Number(value)` restricted to the forms reaching the parser:
whitespace is trimmed, the empty string is `0`, decimal literals evaluate to
themselves (kept as literals, see `JsValue`), everything else is `NaN`
(`none`).  The hexadecimal / `Infinity` forms JavaScript additionally accepts
do not occur in any input considered here. -/
def jsNumberOf (s0 : List Char) : Option (List Char) :=
  let s := jsTrim s0
  if s.isEmpty then some ['0']
  else if isJsNumericLiteral s then some s
  else none

/-- Model of `parseNumber`: `Number(value)` with a thrown error on `NaN`. -/
def parseNumber (value : List Char) : Option JsValue :=
  (jsNumberOf value).map jnum

/-- Model of `parseBoolean`: case-insensitive `true` / `false`, thrown error
otherwise. -/
def parseBoolean (value : List Char) : Option JsValue :=
  let normalized := value.map asciiLower
  if normalized = "true".toList then some (jbool true)
  else if normalized = "false".toList then some (jbool false)
  else none

/-- Model of `parseArrayItem`: strict JSON first, then quote stripping, then
number, boolean and null literals, else the raw string. -/
def parseArrayItem (item : List Char) : JsValue :=
  let trimmed := jsTrim item
  match jsonParse trimmed with
  | some v => v
  | none =>
    if (trimmed.head? = some dquoteChar ∧ trimmed.getLast? = some dquoteChar) ∨
        (trimmed.head? = some squoteChar ∧ trimmed.getLast? = some squoteChar) then
      jstr ((trimmed.drop 1).dropLast)
    else
      match jsNumberOf trimmed with
      | some lit => jnum lit
      | none =>
        if trimmed = "true".toList then jbool true
        else if trimmed = "false".toList then jbool false
        else if trimmed = "null".toList then jnull
        else jstr trimmed

/-- Manual top-level splitting loop of `parseArray` strategy 3: split on
commas at bracket depth zero, respecting double-quoted strings (quotes toggle
only at depth zero, as in the source) and backslash escapes. -/
def splitTopLevelGo (cs : List Char) (current : List Char) (inString escapeNext : Bool)
    (depth : Int) (items : List (List Char)) : List (List Char) :=
  match cs with
  | [] =>
    let item := jsTrim current
    if item.isEmpty then items else items ++ [item]
  | c :: rest =>
    if escapeNext then splitTopLevelGo rest (current ++ [c]) inString false depth items
    else if c = backslashChar then splitTopLevelGo rest (current ++ [c]) inString true depth items
    else if c = dquoteChar ∧ depth = 0 then
      splitTopLevelGo rest (current ++ [c]) (!inString) escapeNext depth items
    else if inString then splitTopLevelGo rest (current ++ [c]) inString escapeNext depth items
    else if c = lcurly ∨ c = '[' then
      splitTopLevelGo rest (current ++ [c]) inString escapeNext (depth + 1) items
    else if c = rcurly ∨ c = ']' then
      splitTopLevelGo rest (current ++ [c]) inString escapeNext (depth - 1) items
    else if c = ',' ∧ depth = 0 then
      let item := jsTrim current
      splitTopLevelGo rest [] inString escapeNext depth
        (if item.isEmpty then items else items ++ [item])
    else splitTopLevelGo rest (current ++ [c]) inString escapeNext depth items

/-- Last index of a character (for the greedy `\[([\s\S]*)\]` bracket
extraction). -/
def lastIndexOfChar (s : List Char) (c : Char) : Option Nat :=
  (firstIndexOfSub s.reverse [c]).map (fun k => s.length - 1 - k)

/-- Content of the greedy bracket match `\[([\s\S]*)\]`: from the first `[`
to the last `]` after it. -/
def bracketContent (s : List Char) : Option (List Char) :=
  match firstIndexOfSub s ['['] with
  | none => none
  | some i =>
    let after := s.drop (i + 1)
    match lastIndexOfChar after ']' with
    | none => none
    | some j => some (after.take j)

/-- Split on line feeds (JavaScript `split('\n')`). -/
def splitOnNewline (s : List Char) : List (List Char) :=
  s.splitOn (Char.ofNat 10)

/-- Remove a trailing comma with optional trailing whitespace
(`line.replace(/,\s*$/, '')`). -/
def stripTrailingComma (line : List Char) : List Char :=
  let revLine := line.reverse
  let ws := revLine.takeWhile isJsSpace
  match revLine.drop ws.length with
  | c :: rest => if c = ',' then rest.reverse else line
  | [] => line

/-- Model of `parseArray` with its four strategies: strict JSON parse,
lenient cleanup and reparse, bracket extraction with JSON retry and manual
top-level splitting, and newline-separated values.  A `none` result models
the final thrown error. -/
def parseArray (value : List Char) : Option (List JsValue) :=
  let trimmed := jsTrim value
  match jsonParse trimmed with
  | some (jarr l) => some l
  | _ =>
    match jsonParse (lenientArrayFix trimmed) with
    | some (jarr l) => some l
    | _ =>
      match bracketContent trimmed with
      | some inner =>
        let content := jsTrim inner
        if content.isEmpty then some []
        else
          match jsonParse ('[' :: (content ++ [']'])) with
          | some (jarr l) => some l
          | _ => some ((splitTopLevelGo content [] false false 0 []).map parseArrayItem)
      | none =>
        let lines := ((splitOnNewline trimmed).map jsTrim).filter
          (fun l => ¬l.isEmpty ∧ l ≠ ['['] ∧ l ≠ [']'])
        if lines.isEmpty then none
        else some (lines.map (fun line => parseArrayItem (stripTrailingComma line)))

/-! ### The batch tagged-field parser

`parseXmlElementWithTagCategory` collects all wizard-tag matches of the
`gi`-flagged pattern (successive `exec` calls), slices each field's content up
to the next match or the `</response` marker, strips an optional closing tag,
dispatches on the `type` attribute, and collapses repeated field names into
arrays. -/

/-- JavaScript `indexOf(pat, fromIndex)`. -/
def firstIndexOfSubFrom (s pat : List Char) (start : Nat) : Option Nat :=
  (firstIndexOfSub (s.drop start) pat).map (· + start)

/-- Successive non-overlapping matches of the wizard tag regex (the `exec`
loop over the `gi`-flagged pattern): absolute position, tag name, attribute
text, match length.  The fuel is bounded by the text length since every match
consumes at least one character. -/
def allWizardTagsGo (fuel : Nat) (base : Nat) (s : List Char) :
    List (Nat × List Char × List Char × Nat) :=
  match fuel with
  | 0 => []
  | fuel + 1 =>
    match firstTagMatch true s with
    | none => []
    | some (p, n, a, len) =>
      (base + p, n, a, len) :: allWizardTagsGo fuel (base + p + len) (s.drop (p + len))

/-- All wizard-tag matches of a text. -/
def allWizardTags (s : List Char) : List (Nat × List Char × List Char × Nat) :=
  allWizardTagsGo (s.length + 1) 0 s

/-- Association-list lookup for the JavaScript result object. -/
def lookupAssoc : List (List Char × JsValue) → List Char → Option JsValue
  | [], _ => none
  | (k, v) :: r, key => if k = key then some v else lookupAssoc r key

/-- Association-list in-place update (key position preserved, as in a
JavaScript object). -/
def updateAssoc : List (List Char × JsValue) → List Char → JsValue → List (List Char × JsValue)
  | [], _, _ => []
  | (k, v) :: r, key, nv => if k = key then (k, nv) :: r else (k, v) :: updateAssoc r key nv

/-- Repeated-field collapse of the parsers: a first occurrence is stored
directly; a second occurrence wraps the existing value into an array unless it
already is one, then pushes the new value. -/
def insertCollapse (acc : List (List Char × JsValue)) (key : List Char) (v : JsValue) :
    List (List Char × JsValue) :=
  match lookupAssoc acc key with
  | none => acc ++ [(key, v)]
  | some (jarr xs) => updateAssoc acc key (jarr (xs ++ [v]))
  | some old => updateAssoc acc key (jarr [old, v])

mutual

/-- Model of `parseXmlElementWithTagCategory`: parse every wizard-tagged
field of `xmlContent` into the result object. -/
def parseXmlElementWithTagCategory : Nat → List Char → Option (List (List Char × JsValue))
  | 0, _ => none
  | fuel + 1, xmlContent =>
    processFields fuel xmlContent (allWizardTags xmlContent) []

/-- Field loop of `parseXmlElementWithTagCategory` over the collected
matches. -/
def processFields : Nat → List Char → List (Nat × List Char × List Char × Nat) →
    List (List Char × JsValue) → Option (List (List Char × JsValue))
  | _, _, [], acc => some acc
  | 0, _, _ :: _, _ => none
  | fuel + 1, xml, (pos, nm, attrs, len) :: rest, acc =>
    let typeHint := (extractTypeAttr attrs).map (List.map asciiLower)
    let contentStart := pos + len
    let contentEnd :=
      match rest.head? with
      | some (npos, _) => npos
      | none =>
        match firstIndexOfSubFrom xml "</response".toList contentStart with
        | some k => k
        | none => xml.length
    let rawContent0 := (xml.take contentEnd).drop contentStart
    let trimmed := jsTrimEnd rawContent0
    let closingTag := '<' :: '/' :: (nm ++ ['>'])
    let rawContent := dropSuffixIfPresent trimmed closingTag
    match batchFieldValue fuel typeHint rawContent with
    | none => none
    | some v => processFields fuel xml rest (insertCollapse acc nm v)

/-- Inline type dispatch of `parseXmlElementWithTagCategory` (source lines
with the `typeHint` conditionals). -/
def batchFieldValue : Nat → Option (List Char) → List Char → Option JsValue
  | 0, _, _ => none
  | fuel + 1, typeHint, rawContent =>
    match typeHint with
    | some th =>
      if th = "string".toList then some (jstr rawContent)
      else if th = "number".toList then parseNumber (jsTrim rawContent)
      else if th = "boolean".toList then parseBoolean (jsTrim rawContent)
      else if th = "array".toList then (parseArray (jsTrim rawContent)).map jarr
      else if th = "object".toList then
        (parseXmlElementWithTagCategory fuel rawContent).map jobj
      else if th = "null".toList then some jnull
      else inferAndParseValue fuel (jsTrim rawContent)
    | none => inferAndParseValue fuel (jsTrim rawContent)

/-- Model of `parseValueByType` (the streaming parser's dispatch). -/
def parseValueByType : Nat → List Char → List Char → Option JsValue
  | 0, _, _ => none
  | fuel + 1, ty, content =>
    if ty = "string".toList then some (jstr content)
    else if ty = "number".toList then parseNumber content
    else if ty = "boolean".toList then parseBoolean content
    else if ty = "array".toList then (parseArray content).map jarr
    else if ty = "object".toList then
      (parseXmlElementWithTagCategory fuel content).map jobj
    else if ty = "null".toList then some jnull
    else inferAndParseValue fuel content

/-- Model of `inferAndParseValue`: best-effort inference for fields without a
usable type attribute. -/
def inferAndParseValue : Nat → List Char → Option JsValue
  | 0, _ => none
  | fuel + 1, content =>
    let trimmed := jsTrim content
    if trimmed.isEmpty then some (jstr [])
    else if trimmed = "null".toList then some jnull
    else if trimmed = "true".toList then some (jbool true)
    else if trimmed = "false".toList then some (jbool false)
    else if (jsNumberOf trimmed).isSome ∧ ¬trimmed.isEmpty then
      some (jnum ((jsNumberOf trimmed).getD []))
    else if hasLooseWizardTag trimmed then
      (parseXmlElementWithTagCategory fuel trimmed).map jobj
    else if (trimmed.head? = some '[' ∧ trimmed.getLast? = some ']') ∨
        (trimmed.head? = some lcurly ∧ trimmed.getLast? = some rcurly) then
      match jsonParse trimmed with
      | some v => some v
      | none => some (jstr trimmed)
    else some (jstr trimmed)

end

/-- Open tag `<response\s*>` of the response regex (case-insensitive); on a
match at the head, returns the match length. -/
def responseOpenAt (s : List Char) : Option Nat :=
  if startsWithMode true "<response".toList s then
    let r := s.drop 9
    let ws := r.takeWhile isJsSpace
    match r.drop ws.length with
    | '>' :: _ => some (9 + ws.length + 1)
    | _ => none
  else none

/-- Close tag `</response\s*>` of the response regex (case-insensitive). -/
def responseCloseAt (s : List Char) : Option Nat :=
  if startsWithMode true "</response".toList s then
    let r := s.drop 10
    let ws := r.takeWhile isJsSpace
    match r.drop ws.length with
    | '>' :: _ => some (10 + ws.length + 1)
    | _ => none
  else none

/-- First position (with match length) where a positional matcher succeeds. -/
def findFirstWith (f : List Char → Option Nat) : List Char → Option (Nat × Nat)
  | [] =>
    match f [] with
    | some len => some (0, len)
    | none => none
  | c :: cs =>
    match f (c :: cs) with
    | some len => some (0, len)
    | none => (findFirstWith f cs).map (fun r => (r.1 + 1, r.2))

/-- Model of `parseXmlToJson`: match
`<response\s*>([\s\S]*?)(?:<\/response\s*>|$)` (case-insensitively, the lazy
group ending at the first close tag or at the end of input) and parse the
captured content; `none` models the thrown missing-response-tag error. -/
def parseXmlToJson (fuel : Nat) (xml : List Char) : Option (List (List Char × JsValue)) :=
  match findFirstWith responseOpenAt xml with
  | none => none
  | some (p, olen) =>
    let after := xml.drop (p + olen)
    let inner :=
      match findFirstWith responseCloseAt after with
      | some (q, _) => after.take q
      | none => after
    parseXmlElementWithTagCategory fuel inner

/-- Model of `parseXmlToJson` with sufficient fuel. -/
def parseXmlToJsonTop (xml : List Char) : Option (List (List Char × JsValue)) :=
  parseXmlToJson (xml.length + 2) xml

/-! ### The streaming parser (`createStreamingXmlParser`)

The closure state consists of the accumulation buffer, the in-response flag,
the result object, the current field and the consecutive-error counter.  One
crucial point of JavaScript semantics is embedded exactly: at the new-field
site the source calls `buffer.match(Wizard.WIZARD_TAG_PATTERN)` where the
pattern carries the global flag, and `String.match` with a global regex
returns an array of all matched strings WITHOUT an `index` property.  The two
guards `tagMatch.index === 0` and `tagMatch.index > 0` therefore never hold
(`undefined` is neither), which `jsMatchGlobalWizard` records by an `index`
of `none`.  The inline regexes of the current-field branch are non-global, so
their matches do carry an index (`firstTagMatch`). -/

/-- Literal `<response>` (the streaming parser's exact `indexOf` probe). -/
def respOpen : List Char := "<response>".toList

/-- Literal `</response>`. -/
def respClose : List Char := "</response>".toList

/-- In-progress field of the streaming parser. -/
structure StreamField where
  name : List Char
  ftype : List Char
  content : List Char

/-- Closure state of `createStreamingXmlParser`. -/
structure StreamState where
  buffer : List Char
  inResponse : Bool
  result : List (List Char × JsValue)
  currentField : Option StreamField
  parseErrors : Nat

/-- Return value of one `push` call: `null`, or a done flag with the result
object. -/
inductive PushOut where
  | nullOut : PushOut
  | out : Bool → List (List Char × JsValue) → PushOut

/-- Result of `String.match` with the global wizard-tag pattern: a possibly
empty match list (`found`) and no index property (`index` is always `none`).
-/
structure JsGlobalMatch where
  found : Bool
  index : Option Nat

/-- Model of `buffer.match(Wizard.WIZARD_TAG_PATTERN)` (global flags `gi`). -/
def jsMatchGlobalWizard (s : List Char) : JsGlobalMatch :=
  { found := (firstTagMatch true s).isSome, index := none }

/-- Plain JavaScript object assignment `result[name] = v` (no collapse in the
streaming parser: a repeated name overwrites). -/
def setAssoc (acc : List (List Char × JsValue)) (key : List Char) (v : JsValue) :
    List (List Char × JsValue) :=
  match lookupAssoc acc key with
  | none => acc ++ [(key, v)]
  | some _ => updateAssoc acc key v

/-- Model of the catch handler of `push`: count the error and, after more
than three consecutive errors, resynchronize at the next wizard tag found at
a positive index. -/
def pushCatch (st : StreamState) : StreamState × PushOut :=
  let st1 := { st with parseErrors := st.parseErrors + 1 }
  if st1.parseErrors > 3 then
    match firstTagMatch false st1.buffer with
    | some (i, _, _, _) =>
      if i > 0 then
        let st2 := { st1 with buffer := st1.buffer.drop i, parseErrors := 0 }
        (st2, .out false st2.result)
      else (st1, .out false st1.result)
    | none => (st1, .out false st1.result)
  else (st1, .out false st1.result)

/-- Loop exit through a `break`: reset the error counter when something was
processed, then return the not-done result. -/
def pushBreak (processed : Bool) (st : StreamState) : StreamState × PushOut :=
  let st1 := if processed then { st with parseErrors := 0 } else st
  (st1, .out false st1.result)

/-- The while loop of `push`.  Fuel: every continuing iteration strictly
decreases `2 * buffer.length + (current-field flag)`, so the fuel supplied by
`runPushLoop` always suffices; the fuel-exhaustion branch is unreachable. -/
def pushLoop : Nat → Bool → StreamState → StreamState × PushOut
  | 0, processed, st => pushBreak processed st
  | fuel + 1, processed, st =>
    if st.buffer.isEmpty then pushBreak processed st
    else
      match st.currentField with
      | some fld =>
        match firstTagMatch false st.buffer with
        | some (i, _, _, _) =>
          -- next wizard tag found: finalize the current field
          let content2 := fld.content ++ st.buffer.take i
          match parseValueByType ((jsTrim content2).length + 2) fld.ftype (jsTrim content2) with
          | none =>
            -- the coercion threw; content was already mutated
            pushCatch { st with currentField := some { fld with content := content2 } }
          | some v =>
            pushLoop fuel true
              { st with
                result := setAssoc st.result fld.name v
                currentField := none
                buffer := st.buffer.drop i }
        | none =>
          match firstIndexOfSub st.buffer respClose with
          | some e =>
            -- end of response: finalize the current field and finish
            let content2 := fld.content ++ st.buffer.take e
            match parseValueByType ((jsTrim content2).length + 2) fld.ftype (jsTrim content2) with
            | none =>
              pushCatch { st with currentField := some { fld with content := content2 } }
            | some v =>
              let st2 := { st with
                result := setAssoc st.result fld.name v
                currentField := some { fld with content := content2 } }
              (st2, .out true st2.result)
          | none =>
            if truncatedTagAtEnd st.buffer then pushBreak processed st
            else
              pushLoop fuel true
                { st with
                  currentField := some { fld with content := fld.content ++ st.buffer }
                  buffer := [] }
      | none =>
        let tagMatch := jsMatchGlobalWizard st.buffer
        if tagMatch.found ∧ tagMatch.index = some 0 then
          -- unreachable: a global-flag match has no index, so this equality
          -- never holds and the new-field construction of the source never
          -- executes
          pushBreak processed st
        else if tagMatch.found ∧ (tagMatch.index.map (fun i => decide (0 < i))).getD false = true then
          -- unreachable for the same reason (mid-buffer tag handling)
          pushBreak processed st
        else
          if containsSub st.buffer respClose then (st, .out true st.result)
          else if truncatedTagAtEnd st.buffer then pushBreak processed st
          else pushBreak processed st

/-- Run the `push` loop with always-sufficient fuel. -/
def runPushLoop (st : StreamState) : StreamState × PushOut :=
  pushLoop (2 * st.buffer.length + 2) false st

/-- Model of one `push(chunk)` call: append to the buffer, wait for the exact
literal `<response>` before anything else, then run the loop. -/
def push (st : StreamState) (chunk : List Char) : StreamState × PushOut :=
  let b := st.buffer ++ chunk
  if st.inResponse then runPushLoop { st with buffer := b }
  else
    match firstIndexOfSub b respOpen with
    | some i => runPushLoop { st with buffer := b.drop (i + 10), inResponse := true }
    | none => ({ st with buffer := b }, .nullOut)

/-- Initial closure state of `createStreamingXmlParser`. -/
def freshStreamState : StreamState :=
  { buffer := [], inResponse := false, result := [], currentField := none, parseErrors := 0 }

/-- Feed a list of chunks in order, collecting every push result. -/
def pushAll (st : StreamState) : List (List Char) → StreamState × List PushOut
  | [] => (st, [])
  | c :: cs =>
    let r1 := push st c
    let r2 := pushAll r1.1 cs
    (r2.1, r1.2 :: r2.2)

/-- Result carried by a done push output. -/
def doneResult : PushOut → Option (List (List Char × JsValue))
  | .out true r => some r
  | _ => none

/-- The final (`done = true`) result of a sequence of push outputs. -/
def firstDone (outs : List PushOut) : Option (List (List Char × JsValue)) :=
  outs.findSome? doneResult

/-- Concatenation of a chunk list. -/
def concatL (cs : List (List Char)) : List Char :=
  cs.foldr (· ++ ·) []

/-! ### Canonical streaming state

Because the new-field guards never fire (see `jsMatchGlobalWizard`), the
`currentField` component stays `none` and the loop never consumes buffer
content; the whole parser state is a function of the text pushed so far. -/

/-- Canonical state after pushing a total text `t` from the fresh state. -/
def stateOf (t : List Char) : StreamState :=
  match firstIndexOfSub t respOpen with
  | some i =>
    { buffer := t.drop (i + 10), inResponse := true, result := [],
      currentField := none, parseErrors := 0 }
  | none =>
    { buffer := t, inResponse := false, result := [],
      currentField := none, parseErrors := 0 }

/-- Canonical output of the push that brought the total pushed text to `t`. -/
def canonicalOut (t : List Char) : PushOut :=
  match firstIndexOfSub t respOpen with
  | none => .nullOut
  | some i =>
    let b := t.drop (i + 10)
    if b.isEmpty then .out false []
    else if containsSub b respClose then .out true []
    else .out false []

theorem pushLoop_noField (fuel : Nat) (hf : 1 ≤ fuel) (st : StreamState)
    (h : st.currentField = none) :
    pushLoop fuel false st =
      (st, if st.buffer.isEmpty then .out false st.result
        else if containsSub st.buffer respClose then .out true st.result
        else .out false st.result) := by
  cases fuel with
  | zero => cases hf
  | succ n =>
    rw [pushLoop]
    by_cases hb : st.buffer.isEmpty
    · simp [hb, pushBreak]
    · simp only [hb, if_false, h]
      by_cases hc : containsSub st.buffer respClose = true
      · simp [hc, jsMatchGlobalWizard, pushBreak]
      · by_cases ht : truncatedTagAtEnd st.buffer = true
        · simp [hc, ht, jsMatchGlobalWizard, pushBreak]
        · simp [hc, ht, jsMatchGlobalWizard, pushBreak]

theorem runPushLoop_noField (st : StreamState) (h : st.currentField = none) :
    runPushLoop st =
      (st, if st.buffer.isEmpty then .out false st.result
        else if containsSub st.buffer respClose then .out true st.result
        else .out false st.result) := by
  unfold runPushLoop
  exact pushLoop_noField _ (by omega) st h

theorem push_stateOf (t c : List Char) :
    push (stateOf t) c = (stateOf (t ++ c), canonicalOut (t ++ c)) := by
  unfold push
  cases ho : firstIndexOfSub t respOpen with
  | none =>
    simp only [stateOf, ho]
    cases ho2 : firstIndexOfSub (t ++ c) respOpen with
    | none =>
      simp [stateOf, canonicalOut, ho2]
    | some i =>
      have hrun := runPushLoop_noField
        { buffer := (t ++ c).drop (i + 10), inResponse := true, result := [],
          currentField := none, parseErrors := 0 } rfl
      simp only [stateOf, canonicalOut, ho2]
      simpa using hrun
  | some i =>
    have hb : i + 10 ≤ t.length := by
      have := firstIndexOfSub_bound t respOpen i ho
      simpa [respOpen] using this
    have ho2 : firstIndexOfSub (t ++ c) respOpen = some i :=
      firstIndexOfSub_append t c respOpen i ho
    have hdrop : t.drop (i + 10) ++ c = (t ++ c).drop (i + 10) :=
      (List.drop_append_of_le_length hb).symm
    have hrun := runPushLoop_noField
      { buffer := (t ++ c).drop (i + 10), inResponse := true, result := [],
        currentField := none, parseErrors := 0 } rfl
    simp only [stateOf, ho, ho2, canonicalOut]
    simpa [hdrop] using hrun

/-- The successive push outputs for chunks fed after total text `t`. -/
def chunkOuts (t : List Char) : List (List Char) → List PushOut
  | [] => []
  | c :: cs => canonicalOut (t ++ c) :: chunkOuts (t ++ c) cs

theorem pushAll_stateOf (t : List Char) (cs : List (List Char)) :
    pushAll (stateOf t) cs = (stateOf (t ++ concatL cs), chunkOuts t cs) := by
  induction cs generalizing t with
  | nil => simp [pushAll, concatL, chunkOuts]
  | cons c cs ih =>
    rw [pushAll]
    rw [push_stateOf t c]
    rw [show (stateOf (t ++ c), canonicalOut (t ++ c)).1 = stateOf (t ++ c) from rfl]
    rw [ih (t ++ c)]
    simp [chunkOuts, concatL, List.append_assoc]

theorem stateOf_nil : stateOf [] = freshStreamState := rfl

theorem canonicalOut_done (t : List Char) (i : Nat)
    (hopen : firstIndexOfSub t respOpen = some i)
    (hclose : containsSub (t.drop (i + 10)) respClose = true) :
    canonicalOut t = .out true [] := by
  unfold canonicalOut
  rw [hopen]
  have hne : t.drop (i + 10) ≠ [] :=
    containsSub_nonempty _ respClose (by simp [respClose]) hclose
  simp [hne, hclose, List.isEmpty_iff]

theorem canonicalOut_shape (t : List Char) :
    canonicalOut t = .nullOut ∨ canonicalOut t = .out false [] ∨
      canonicalOut t = .out true [] := by
  unfold canonicalOut
  cases firstIndexOfSub t respOpen with
  | none => exact Or.inl rfl
  | some i =>
    by_cases h1 : (t.drop (i + 10)).isEmpty
    · simp [h1]
    · by_cases h2 : containsSub (t.drop (i + 10)) respClose
      · simp [h1, h2]
      · simp [h1, h2]

theorem chunkOuts_shape (t : List Char) (cs : List (List Char)) (o : PushOut)
    (ho : o ∈ chunkOuts t cs) :
    doneResult o = none ∨ doneResult o = some [] := by
  induction cs generalizing t with
  | nil => simp [chunkOuts] at ho
  | cons c cs ih =>
    rw [chunkOuts] at ho
    rcases List.mem_cons.mp ho with h | h
    · subst h
      rcases canonicalOut_shape (t ++ c) with h | h | h <;>
        simp [h, doneResult]
    · exact ih (t ++ c) h

theorem chunkOuts_last_mem (t : List Char) (cs : List (List Char)) (hne : cs ≠ []) :
    canonicalOut (t ++ concatL cs) ∈ chunkOuts t cs := by
  induction cs generalizing t with
  | nil => exact absurd rfl hne
  | cons c cs ih =>
    rw [chunkOuts]
    cases cs with
    | nil =>
      simp [concatL]
    | cons d ds =>
      have := ih (t ++ c) (by simp)
      rw [show t ++ c ++ concatL (d :: ds) = t ++ concatL (c :: d :: ds) by
        simp [concatL, List.append_assoc]] at this
      exact List.mem_cons_of_mem _ this

theorem findSome_doneResult (outs : List PushOut)
    (hall : ∀ o ∈ outs, doneResult o = none ∨ doneResult o = some [])
    (hex : ∃ o ∈ outs, doneResult o = some []) :
    outs.findSome? doneResult = some [] := by
  induction outs with
  | nil => simp at hex
  | cons o os ih =>
    rw [List.findSome?]
    cases hdo : doneResult o with
    | some r =>
      rcases hall o (by simp) with h | h
      · rw [hdo] at h
        cases h
      · rw [hdo] at h
        cases h
        rfl
    | none =>
      apply ih
      · intro o' ho'
        exact hall o' (List.mem_cons_of_mem _ ho')
      · rcases hex with ⟨o', ho', hdo'⟩
        rcases List.mem_cons.mp ho' with h | h
        · subst h
          rw [hdo] at hdo'
          cases hdo'
        · exact ⟨o', h, hdo'⟩

theorem chunkOuts_nullOut (t : List Char) (cs : List (List Char))
    (h : containsSub (t ++ concatL cs) respOpen = false) :
    ∀ o ∈ chunkOuts t cs, o = .nullOut := by
  induction cs generalizing t with
  | nil => simp [chunkOuts]
  | cons c cs ih =>
    intro o ho
    rw [chunkOuts] at ho
    have hassoc : (t ++ c) ++ concatL cs = t ++ concatL (c :: cs) := by
      simp [concatL, List.append_assoc]
    rcases List.mem_cons.mp ho with h1 | h1
    · subst h1
      have hnone : firstIndexOfSub (t ++ c) respOpen = none := by
        cases hfi : firstIndexOfSub (t ++ c) respOpen with
        | none => rfl
        | some i =>
          have hap := firstIndexOfSub_append (t ++ c) (concatL cs) respOpen i hfi
          rw [hassoc] at hap
          unfold containsSub at h
          rw [hap] at h
          simp at h
      unfold canonicalOut
      rw [hnone]
    · refine ih (t ++ c) ?_ o h1
      rw [hassoc]
      exact h

theorem stateOf_not_inResponse (t : List Char) (h : containsSub t respOpen = false) :
    (stateOf t).inResponse = false := by
  unfold stateOf
  cases hfi : firstIndexOfSub t respOpen with
  | none => rfl
  | some i =>
    unfold containsSub at h
    rw [hfi] at h
    simp at h

/-! ### Flow-control signals and the parallel-group fold -/

/-- Flow-control signal (`FlowControlSignal`): the string constants, `GOTO
<id>` strings as the `goto` constructor, and `BUNGEE_JUMP` objects carrying a
reference into a plan environment. -/
inductive Signal where
  | next : Signal
  | stop : Signal
  | retry : Signal
  | wait : Signal
  | goto : List Char → Signal
  | bungee : Nat → Signal
deriving Repr, DecidableEq

/-- Accumulator loop of `executeParallelSteps` (source lines 328-342): a
`STOP` returns immediately, the first `GOTO` breaks with itself, a `RETRY`
replaces the accumulator and scanning continues; other signals are ignored. -/
def parallelSignalGo : List Signal → Signal → Signal
  | [], acc => acc
  | s :: rest, acc =>
    match s with
    | .stop => .stop
    | .goto id => .goto id
    | .retry => parallelSignalGo rest .retry
    | _ => parallelSignalGo rest acc

/-- Model of `executeParallelSteps` restricted to its signal reconciliation:
the member signals arrive in member order (`Promise.all` preserves order) and
are folded starting from `NEXT`. -/
def executeParallelSteps (signals : List Signal) : Signal :=
  parallelSignalGo signals Signal.next

/-- Signals that terminate the scan of `executeParallelSteps`. -/
def isStopOrGoto : Signal → Bool
  | .stop => true
  | .goto _ => true
  | _ => false

/-- Retry test. -/
def isRetrySig : Signal → Bool
  | .retry => true
  | _ => false

/-! ### The always-throwing step retry loop (`executeStep` catch path) -/

/-- One failing execution attempt (source lines 522-556): compute the
incremented counter; beyond `maxRetries` return the fatal `STOP` without
writing the counter back, otherwise record the incremented counter and return
`RETRY`.  The returned `Nat` is the `<stepId>_retryCount` context entry after
the attempt. -/
def failingStepAttempt (maxRetries rc : Nat) : Signal × Nat :=
  let currentRetryCount := rc + 1
  if currentRetryCount > maxRetries then (.stop, rc)
  else (.retry, currentRetryCount)

/-- Run-loop iteration on an always-throwing step: `RETRY` leaves the index
unchanged and re-executes, `STOP` halts.  Returns the number of execution
attempts and the final retry counter.  Fuel bounds the iteration count. -/
def runFailingStep : Nat → Nat → Nat → Nat × Nat
  | 0, _, rc => (0, rc)
  | fuel + 1, maxRetries, rc =>
    let a := failingStepAttempt maxRetries rc
    if a.1 = .stop then (1, a.2)
    else
      let r := runFailingStep fuel maxRetries a.2
      (r.1 + 1, r.2)

/-- Context counter after `k` failed attempts of an always-throwing step. -/
def counterAfterAttempts (maxRetries : Nat) : Nat → Nat
  | 0 => 0
  | k + 1 => (failingStepAttempt maxRetries (counterAfterAttempts maxRetries k)).2

/-! ### The bungee launch loop and its concurrency tracking

`executeBungeePlan` (bungee/executor.ts lines 15-49) launches one worker per
destination and, when the tracked `activeWorkers` set has reached
`plan.concurrency`, awaits `Promise.race` and then deletes every tracked
promise other than the just-launched one.  Worker settlement is abstracted by
a finish schedule: in the single-threaded runtime workers settle only during
an `await`, in some global order. -/

/-- State of the bungee launch loop: workers in flight, settled workers, the
tracked `activeWorkers` set, the running maximum of simultaneously in-flight
workers, and the remaining finish schedule. -/
structure BungeeLoopState where
  running : List Nat
  settled : List Nat
  tracked : List Nat
  maxInFlight : Nat
  sched : List Nat
deriving Repr, DecidableEq

/-- Await `Promise.race(activeWorkers)`: if a tracked promise has already
settled, the race resolves at once (no new settlement is needed); otherwise
in-flight workers settle in schedule order until a tracked one does. -/
def raceStep : Nat → BungeeLoopState → BungeeLoopState
  | 0, st => st
  | fuel + 1, st =>
    if st.tracked.any (fun w => st.settled.contains w) then st
    else
      match st.sched with
      | [] => st
      | w :: rest =>
        let st1 : BungeeLoopState :=
          { st with
            running := st.running.filter (fun x => x ≠ w)
            settled := st.settled ++ [w]
            sched := rest }
        if st.tracked.contains w then st1 else raceStep fuel st1

/-- The destination loop of `executeBungeePlan`: launch each worker (it is in
flight from launch), record the in-flight maximum, and at the concurrency cap
race and then keep only the just-launched promise in the tracked set (the
source's cleanup deletes unsettled workers too). -/
def bungeeLaunchLoop (concurrency : Nat) : List Nat → BungeeLoopState → BungeeLoopState
  | [], st => st
  | i :: rest, st =>
    let st1 : BungeeLoopState :=
      { st with
        running := st.running ++ [i]
        tracked := st.tracked ++ [i] }
    let st2 : BungeeLoopState := { st1 with maxInFlight := max st1.maxInFlight st1.running.length }
    let st3 : BungeeLoopState :=
      if concurrency ≤ st2.tracked.length then
        let st4 := raceStep (st2.sched.length + 1) st2
        { st4 with tracked := [i] }
      else st2
    bungeeLaunchLoop concurrency rest st3

/-- Launch phase of `executeBungeePlan` for a plan with the given destination
indices, concurrency cap and worker finish schedule.  The trailing
`Promise.all` await launches nothing, so it cannot increase the in-flight
maximum and is not modelled here. -/
def executeBungeePlanLaunch (concurrency : Nat) (destinations : List Nat)
    (sched : List Nat) : BungeeLoopState :=
  bungeeLaunchLoop concurrency destinations
    { running := [], settled := [], tracked := [], maxInFlight := 0, sched := sched }

/-! ### Bungee completion dispatch and failure policy -/

/-- Where a plan's first worker rejection surfaces.  The executor awaits
worker promises at two places: `await Promise.race(activeWorkers)` inside the
launch loop (executor.ts line 28), which sits OUTSIDE the try/catch, and
`await Promise.all(activeWorkers)` (line 41), which sits inside a try whose
catch applies the `failWizardOnFailure` policy.  Because races happen only
once the tracked set has reached `plan.concurrency`, a rejection can surface
at a race — or, after the post-race cleanup (lines 29-34) has dropped the
worker from the tracked set, never be awaited at all — only when the
destination count reaches the cap; below the cap every rejection surfaces at
the `Promise.all`.  Which of these happens is a property of the scheduling,
abstracted here as an oracle alongside the worker outcomes. -/
inductive RejectionSurface where
  | atAll : RejectionSurface
  | atRace : RejectionSurface
  | unobserved : RejectionSurface
deriving Repr, DecidableEq

/-- Bungee plan as consumed by the executor: the anchor id, the concurrency
cap, and the option flags of the builder's plan object (absent flags are
`none`).  `onComplete` is `none` when no callback was supplied; a supplied
callback is abstracted by its return value, itself an `Option Signal`
(`none` models a falsy return).  Worker execution is abstracted by
per-destination outcomes (`none` for success, `some msg` for a thrown error)
together with the scheduling oracle `surface` saying where the first
rejection, if any, surfaces (see `RejectionSurface`; meaningful only when an
outcome is an error, and `atRace` / `unobserved` are feasible only when the
destination count reaches `concurrency`). -/
structure BungeePlanM where
  anchorId : List Char
  concurrency : Nat
  returnToAnchor : Option Bool
  failWizardOnFailure : Option Bool
  optimistic : Bool
  onComplete : Option (Option Signal)
  workerOutcomes : List (Option (List Char))
  surface : RejectionSurface

/-- First worker rejection of a plan. -/
def firstWorkerError (p : BungeePlanM) : Option (List Char) :=
  p.workerOutcomes.findSome? id

/-- Reentry queueing performed by the last worker's `finally`
(`launchBungeeWorker` lines 81-96): once every worker of the plan has settled
and `returnToAnchor` is not explicitly false, the anchor id is added to
`pendingReentry` — independent of `onComplete` and of worker failures. -/
def bungeeReentryFlag (p : BungeePlanM) : Bool :=
  !p.workerOutcomes.isEmpty && decide (p.returnToAnchor ≠ some false)

/-- Outcome of `executeBungeePlan` (executor.ts lines 15-60).  A rejection
that surfaces at an in-loop `Promise.race` (line 28, outside the try)
escapes the executor regardless of `failWizardOnFailure` and of `optimistic`.
A rejection that surfaces at the `Promise.all` (lines 38-49) is rethrown
unless `failWizardOnFailure` is explicitly false, in which case it is
swallowed with only a console log; with `optimistic` set the `Promise.all`
is skipped, so such a rejection is never observed.  A rejection of a worker
that the cleanup dropped from the tracked set is never awaited and never
observed.  When no rejection escapes, the resolved value is the `onComplete`
return, or nothing. -/
def executeBungeePlanOutcome (p : BungeePlanM) : Except (List Char) (Option Signal) :=
  match firstWorkerError p with
  | some e =>
    match p.surface with
    | .atRace => .error e
    | .unobserved => .ok (p.onComplete.getD none)
    | .atAll =>
      if p.optimistic then .ok (p.onComplete.getD none)
      else if p.failWizardOnFailure ≠ some false then .error e
      else .ok (p.onComplete.getD none)
  | none => .ok (p.onComplete.getD none)

/-- Run-loop state relevant to signal dispatch. -/
structure RunState where
  currentStepIndex : Nat
  isRunning : Bool
  context : List (List Char × List Char)
  pendingReentry : List (List Char)
deriving Repr, DecidableEq

/-- Context assignment (overwrite in place or append). -/
def setCtxKey : List (List Char × List Char) → List Char → List Char →
    List (List Char × List Char)
  | [], k, v => [(k, v)]
  | (k0, v0) :: r, k, v =>
    if k0 = k then (k0, v) :: r else (k0, v0) :: setCtxKey r k v

/-- The fixed context key the bungee catch handler writes
(`this.workflowContext['bungee_error'] = error.message`). -/
def bungeeErrorKey : List Char := "bungee_error".toList

/-- Add the anchor to the pending-reentry queue when the flag holds. -/
def addReentryIf (flag : Bool) (anchorId : List Char) (st : RunState) : RunState :=
  if flag then { st with pendingReentry := st.pendingReentry ++ [anchorId] } else st

/-- Model of `handleFlowControlSignal` (source lines 216-263) over a plan
environment and a step-id resolver.  The fuel bounds the recursive
interpretation of a bungee result signal; exceptions (unknown `GOTO` target,
a rethrown bungee rejection reaching the catch) are the `Except` error.  The
boolean is the source's return value (continue the run loop or not). -/
def handleFlowControlSignal (plans : Nat → BungeePlanM) (resolve : List Char → Option Nat) :
    Nat → Signal → RunState → Except (List Char) (RunState × Bool)
  | _, .next, st => .ok ({ st with currentStepIndex := st.currentStepIndex + 1 }, true)
  | _, .stop, st => .ok ({ st with isRunning := false }, false)
  | _, .retry, st => .ok (st, true)
  | _, .wait, st =>
    -- after the fixed ten-second sleep
    .ok ({ st with currentStepIndex := st.currentStepIndex + 1 }, true)
  | _, .goto id, st =>
    match resolve id with
    | some idx => .ok ({ st with currentStepIndex := idx }, true)
    | none => .error ("Unknown step ID for GOTO: ".toList ++ id)
  | fuel, .bungee pid, st =>
    let p := plans pid
    let st1 := addReentryIf (bungeeReentryFlag p) p.anchorId st
    match executeBungeePlanOutcome p with
    | .ok result =>
      match result with
      | some s =>
        match fuel with
        | 0 => .error "recursion fuel exhausted".toList
        | fuel2 + 1 => handleFlowControlSignal plans resolve fuel2 s st1
      | none =>
        if p.returnToAnchor = some false then
          .ok ({ st1 with currentStepIndex := st1.currentStepIndex + 1 }, true)
        else .ok (st1, true)
    | .error e =>
      let st2 := { st1 with context := setCtxKey st1.context bungeeErrorKey e }
      if p.failWizardOnFailure ≠ some false then
        .ok ({ st2 with isRunning := false }, false)
      else .ok (st2, true)

/-! ### Validation/repair pipeline (`generateStepData`) -/

/-- Step data produced by `generateStepData`: the compute-step `null`, a
validated value, or the `__validationFailed` sentinel object carrying the
original validation error message. -/
inductive StepData where
  | jsNullData : StepData
  | val : JsValue → StepData
  | sentinel : List Char → StepData

/-- Inner try of the validation-failure branch of `generateStepData` (source
lines 780-787): run the repair round trip (`repairSchemaData` followed by
revalidation); the catch turns either failure into the sentinel object
carrying the original validation error, instead of rethrowing. -/
def repairPhase (validate : JsValue → Except (List Char) JsValue)
    (repairRoundTrip : List Char → JsValue → Except (List Char) JsValue)
    (latestResult : JsValue) (validationError : List Char) : StepData :=
  match repairRoundTrip validationError latestResult with
  | .ok repairedData =>
    match validate repairedData with
    | .ok v => .val v
    | .error _ => .sentinel validationError
  | .error _ => .sentinel validationError

/-- Validation/repair tail of `generateStepData` (source lines 777-788):
validate the parsed result; on failure enter the repair try/catch
(`repairPhase`). -/
def generateStepData (validate : JsValue → Except (List Char) JsValue)
    (repairRoundTrip : List Char → JsValue → Except (List Char) JsValue)
    (latestResult : JsValue) : StepData :=
  match validate latestResult with
  | .ok v => .val v
  | .error validationError =>
    repairPhase validate repairRoundTrip latestResult validationError

/-- Sentinel check of `executeStep` (source lines 488-500): a
`__validationFailed` value short-circuits to `RETRY` before the update
function runs; otherwise the update function's signal is returned. -/
def executeStepSignal (stepData : StepData) (updateSignal : Signal) : Signal :=
  match stepData with
  | .sentinel _ => .retry
  | _ => updateSignal

/-! ### Concrete inputs used by the claim theorems and witnesses -/

/-- Valid payload: one wizard-tagged string field inside the container. -/
def payloadC1 : List Char :=
  "<response><name tag-category=\"wizard\" type=\"string\">Ada</response>".toList

/-- First chunk of a split of `payloadC1` falling inside the field's open
marker (the marker is cut inside `tag-category`). -/
def payloadC1a : List Char := "<response><name ta".toList

/-- Second chunk of the split. -/
def payloadC1b : List Char :=
  "g-category=\"wizard\" type=\"string\">Ada</response>".toList

/-- Payload with two fields of the same name and different values. -/
def payloadC4 : List Char :=
  ("<response><a tag-category=\"wizard\" type=\"string\">x" ++
   "<a tag-category=\"wizard\" type=\"string\">y</response>").toList

/-- Payload whose container tag carries whitespace (`<response >`). -/
def payloadC10 : List Char :=
  "<response ><name tag-category=\"wizard\" type=\"string\">Ada</response>".toList

/-- Chunked form of `payloadC10`, split directly after `<response `. -/
def payloadC10a : List Char := "<response ".toList

/-- Second chunk of `payloadC10`. -/
def payloadC10b : List Char :=
  "><name tag-category=\"wizard\" type=\"string\">Ada</response>".toList

/-- Array field content with a trailing comma. -/
def arrayC9 : List Char := "[\"a\", \"b\",]".toList

/-- Plan with one succeeding worker, a supplied `onComplete` returning `NEXT`
and `returnToAnchor` left unset. -/
def plansC6W : Nat → BungeePlanM := fun _ =>
  { anchorId := "anchor".toList, concurrency := 5, returnToAnchor := none,
    failWizardOnFailure := none, optimistic := false,
    onComplete := some (some .next), workerOutcomes := [none], surface := .atAll }

/-- Plan with two throwing workers and default options, below the cap (so the
rejection surfaces at the `Promise.all`). -/
def plansC7W : Nat → BungeePlanM := fun _ =>
  { anchorId := "anchor".toList, concurrency := 5, returnToAnchor := none,
    failWizardOnFailure := none, optimistic := false, onComplete := none,
    workerOutcomes := [some "boom1".toList, some "boom2".toList], surface := .atAll }

/-- Plan at the concurrency cap with `failWizardOnFailure` explicitly false
whose rejection settles during an in-loop `Promise.race`: the rejection
escapes the executor's try and reaches the run loop's catch anyway. -/
def plansC7R : Nat → BungeePlanM := fun _ =>
  { anchorId := "anchor".toList, concurrency := 2, returnToAnchor := none,
    failWizardOnFailure := some false, optimistic := false, onComplete := none,
    workerOutcomes := [some "boom1".toList, none], surface := .atRace }

/-- Fresh run state. -/
def stW : RunState :=
  { currentStepIndex := 0, isRunning := true, context := [], pendingReentry := [] }

/-- Validator that always fails with a fixed message. -/
def valAlwaysBad : JsValue → Except (List Char) JsValue := fun _ => .error "bad".toList

/-- Repair round trip that returns a value (which then fails revalidation). -/
def repairOkNull : List Char → JsValue → Except (List Char) JsValue := fun _ _ => .ok jnull

/-- Completion dispatch of a successfully completed bungee plan as the run
loop performs it: interpret a truthy `onComplete` signal recursively; with no
(truthy) signal, advance the index only when `returnToAnchor` is explicitly
false. -/
def bungeeSuccessDispatch (plans : Nat → BungeePlanM) (resolve : List Char → Option Nat)
    (fuel : Nat) (p : BungeePlanM) (st : RunState) : Except (List Char) (RunState × Bool) :=
  let st1 := addReentryIf (bungeeReentryFlag p) p.anchorId st
  match p.onComplete.getD none with
  | some s => handleFlowControlSignal plans resolve fuel s st1
  | none =>
    if p.returnToAnchor = some false then
      .ok ({ st1 with currentStepIndex := st1.currentStepIndex + 1 }, true)
    else .ok (st1, true)

/-- Failure dispatch of a bungee plan with a rejected worker.  The rejection
reaches the run loop's catch when it surfaces at an in-loop `Promise.race`
(whose await is outside the executor's try, escaping regardless of
`failWizardOnFailure`), or at the `Promise.all` with `failWizardOnFailure`
not explicitly false; the catch records the error under the single fixed key
`bungee_error` and stops the run exactly when `failWizardOnFailure` is not
explicitly false.  A rejection surfacing at the `Promise.all` with the flag
explicitly false is swallowed inside the executor, and a rejection of a
worker dropped from the tracked set is never observed: in both cases nothing
is recorded and completion proceeds as on success. -/
def bungeeFailureDispatch (plans : Nat → BungeePlanM) (resolve : List Char → Option Nat)
    (fuel : Nat) (p : BungeePlanM) (st : RunState) (e : List Char) :
    Except (List Char) (RunState × Bool) :=
  let st1 := addReentryIf (bungeeReentryFlag p) p.anchorId st
  if p.surface = .atRace ∨ (p.surface = .atAll ∧ p.failWizardOnFailure ≠ some false) then
    let st2 := { st1 with context := setCtxKey st1.context bungeeErrorKey e }
    if p.failWizardOnFailure ≠ some false then
      .ok ({ st2 with isRunning := false }, false)
    else .ok (st2, true)
  else
    match p.onComplete.getD none with
    | some s => handleFlowControlSignal plans resolve fuel s st1
    | none =>
      if p.returnToAnchor = some false then
        .ok ({ st1 with currentStepIndex := st1.currentStepIndex + 1 }, true)
      else .ok (st1, true)

/-! ### Supporting lemmas for the claim theorems -/

theorem parallelSignalGo_spec (signals : List Signal) (acc : Signal) :
    parallelSignalGo signals acc =
      (signals.find? isStopOrGoto).getD
        (if signals.any isRetrySig then .retry else acc) := by
  induction signals generalizing acc with
  | nil => simp [parallelSignalGo]
  | cons s rest ih =>
    cases s <;>
      simp [parallelSignalGo, List.find?_cons, isStopOrGoto, isRetrySig, ih]

theorem runFailingStep_from (maxRetries : Nat) :
    ∀ fuel rc, rc ≤ maxRetries → maxRetries + 1 - rc ≤ fuel →
      runFailingStep fuel maxRetries rc = (maxRetries + 1 - rc, maxRetries) := by
  intro fuel
  induction fuel with
  | zero => intro rc hrc hf; omega
  | succ n ih =>
    intro rc hrc hf
    rw [runFailingStep]
    by_cases h : rc + 1 > maxRetries
    · rw [show failingStepAttempt maxRetries rc = (.stop, rc) from by
        simp [failingStepAttempt, h]]
      have hrm : rc = maxRetries := by omega
      have h1 : maxRetries + 1 - rc = 1 := by omega
      simp [h1, hrm]
    · have hstep := ih (rc + 1) (by omega) (by omega)
      simp [show failingStepAttempt maxRetries rc = (.retry, rc + 1) from by
        simp [failingStepAttempt, h], hstep]
      omega

theorem counterAfterAttempts_le (maxRetries : Nat) :
    ∀ k, k ≤ maxRetries → counterAfterAttempts maxRetries k = k := by
  intro k
  induction k with
  | zero => intro _; rfl
  | succ n ih =>
    intro h
    have hn : ¬ (n + 1 > maxRetries) := by omega
    rw [counterAfterAttempts, ih (by omega)]
    simp [failingStepAttempt, hn]

/-! ### Claim theorems -/

/-- C1.  Streaming-parser chunk invariance: for every valid tagged-field
payload (container open marker present, container close marker after it),
splitting the serialized text at any byte offsets into two or more chunks and
feeding the pieces to the streaming parser's push in order yields the same
final (done = true) result map as pushing the entire text in a single call —
including splits that fall in the middle of a field's open marker.  (The
common final result map is the empty object: the streaming parser's new-field
branch is unreachable, see `jsMatchGlobalWizard`.) -/
theorem streaming_chunk_invariance (t : List Char) (cs : List (List Char)) (i : Nat)
    (hsplit : concatL cs = t) (hn : 2 ≤ cs.length)
    (hopen : firstIndexOfSub t respOpen = some i)
    (hclose : containsSub (t.drop (i + 10)) respClose = true) :
    firstDone (pushAll freshStreamState cs).2 = firstDone (pushAll freshStreamState [t]).2 ∧
    firstDone (pushAll freshStreamState cs).2 = some [] := by
  have hcs : cs ≠ [] := by
    intro hc
    subst hc
    simp at hn
  have hcan : canonicalOut t = .out true [] := canonicalOut_done t i hopen hclose
  have houts : (pushAll freshStreamState cs).2 = chunkOuts [] cs := by
    rw [show freshStreamState = stateOf [] from rfl, pushAll_stateOf]
  have houts1 : (pushAll freshStreamState [t]).2 = chunkOuts [] [t] := by
    rw [show freshStreamState = stateOf [] from rfl, pushAll_stateOf]
  have hdone : firstDone (chunkOuts [] cs) = some [] := by
    apply findSome_doneResult
    · exact fun o ho => chunkOuts_shape [] cs o ho
    · refine ⟨canonicalOut ([] ++ concatL cs), chunkOuts_last_mem [] cs hcs, ?_⟩
      rw [List.nil_append, hsplit, hcan]
      rfl
  have hdone1 : firstDone (chunkOuts [] [t]) = some [] := by
    simp [chunkOuts, firstDone, List.findSome?, hcan, doneResult]
  refine ⟨?_, ?_⟩
  · rw [houts, houts1, hdone, hdone1]
  · rw [houts, hdone]

/-- Witness for C1 at the concrete payload, split in the middle of the
field's open marker. -/
theorem streaming_chunk_invariance_witness :
    firstDone (pushAll freshStreamState [payloadC1a, payloadC1b]).2 =
      firstDone (pushAll freshStreamState [payloadC1]).2 ∧
    firstDone (pushAll freshStreamState [payloadC1a, payloadC1b]).2 = some [] :=
  streaming_chunk_invariance payloadC1 [payloadC1a, payloadC1b] 0
    (by decide) (by decide) (by decide) (by decide)

/-- C2.  Bungee concurrency bound (claimed: never more than `concurrency`
workers in flight).  Counter-evaluation: a plan with five destinations and
concurrency two reaches three simultaneously in-flight workers under the
schedule in which the second-launched worker settles first — the cleanup
after `Promise.race` deletes the still-running first worker from the tracked
set, so the cap stops counting it. -/
theorem bungee_concurrency_bound_violated :
    (executeBungeePlanLaunch 2 [0, 1, 2, 3, 4] [1, 0, 2, 3]).maxInFlight = 3 ∧
    2 < (executeBungeePlanLaunch 2 [0, 1, 2, 3, 4] [1, 0, 2, 3]).maxInFlight := by
  refine ⟨by decide, by decide⟩

/-- C3 counterexample.  With `maxRetries = 1` the run performs two attempts
but the final context counter is 1, not 2: the fatal attempt returns `STOP`
without writing the incremented counter, contradicting "incremented on each
failed attempt". -/
theorem retry_counter_final_attempt_cex :
    runFailingStep 2 1 0 = (2, 1) ∧ (1 : Nat) ≠ 2 := by
  refine ⟨by decide, by decide⟩

/-- C3 (amended).  A step whose execution always throws reaches the
fatal-stop state after exactly `maxRetries + 1` attempts — never fewer, and
with any sufficient fuel, never indefinitely — with `<stepId>_retryCount`
incremented on each failed attempt except the final one, which returns the
fatal stop without updating the counter (it remains `maxRetries`). -/
theorem retry_budget_termination_amended (maxRetries fuel : Nat)
    (hfuel : maxRetries + 1 ≤ fuel) :
    runFailingStep fuel maxRetries 0 = (maxRetries + 1, maxRetries) ∧
    (∀ k, k ≤ maxRetries → counterAfterAttempts maxRetries k = k) ∧
    counterAfterAttempts maxRetries (maxRetries + 1) = maxRetries := by
  refine ⟨?_, counterAfterAttempts_le maxRetries, ?_⟩
  · have := runFailingStep_from maxRetries fuel 0 (by omega) (by omega)
    simpa using this
  · rw [counterAfterAttempts, counterAfterAttempts_le maxRetries maxRetries (by omega)]
    simp [failingStepAttempt]

/-- Witness for C3 (amended) at `maxRetries = 1`. -/
theorem retry_budget_termination_amended_witness :
    runFailingStep 2 1 0 = (1 + 1, 1) ∧
    (∀ k, k ≤ 1 → counterAfterAttempts 1 k = k) ∧
    counterAfterAttempts 1 (1 + 1) = 1 :=
  retry_budget_termination_amended 1 2 (by decide)

/-- C4.  Repeated field collapse: the batch parser collapses the two
same-named fields into the two-element array in order, but the streaming
parser fed the same text finishes with the empty result map (its field
extraction is unreachable, see `jsMatchGlobalWizard`), so the claim fails for
the streaming half. -/
theorem repeated_field_collapse_streaming_divergence :
    parseXmlToJsonTop payloadC4 =
      some [("a".toList, jarr [jstr "x".toList, jstr "y".toList])] ∧
    firstDone (pushAll freshStreamState [payloadC4]).2 = some [] ∧
    some ([] : List (List Char × JsValue)) ≠
      some [("a".toList, jarr [jstr "x".toList, jstr "y".toList])] := by
  refine ⟨rfl, rfl, by simp⟩

/-- C5 counterexample.  A parallel group returning `[GOTO a, STOP]` yields
the `GOTO`, not the `STOP`: the scan breaks at the first `GOTO`, so a later
`STOP` does not win outright. -/
theorem parallel_stop_priority_cex :
    executeParallelSteps [.goto "a".toList, .stop] = .goto "a".toList ∧
    Signal.goto "a".toList ≠ .stop := by
  refine ⟨by decide, by decide⟩

/-- C5 (amended).  The group's effective signal is the first `Stop`-or-`Goto`
in member order (a `Stop` wins only over members after the first `Goto`);
when neither occurs, `Retry` if any member retried, else `Next`. -/
theorem parallel_signal_priority_amended (signals : List Signal) :
    executeParallelSteps signals =
      (signals.find? isStopOrGoto).getD
        (if signals.any isRetrySig then .retry else .next) :=
  parallelSignalGo_spec signals .next

/-- C6 counterexample.  A plan with a supplied `onComplete` (returning
`NEXT`) and `returnToAnchor` left unset queues the anchor for reentry anyway:
the claim's "else" structure (reentry only when no `onComplete` was supplied)
does not hold. -/
theorem bungee_completion_reentry_cex :
    handleFlowControlSignal plansC6W (fun _ => none) 2 (.bungee 0) stW =
      .ok ({ currentStepIndex := 1, isRunning := true, context := [],
             pendingReentry := ["anchor".toList] }, true) ∧
    ("anchor".toList :: ([] : List (List Char))) ≠ [] := by
  refine ⟨rfl, by simp⟩

/-- C6 (amended).  For a plan whose workers all succeed: a supplied
`onComplete`'s truthy return value becomes the plan's effective signal and is
recursively interpreted; independently, whenever `returnToAnchor` is not
explicitly false (and the plan has destinations) the anchor step id is queued
for reentry; when no truthy signal is produced, the step index advances past
the launching step exactly when `returnToAnchor` is explicitly false. -/
theorem bungee_completion_dispatch_amended (plans : Nat → BungeePlanM)
    (resolve : List Char → Option Nat) (fuel pid : Nat) (st : RunState)
    (hw : firstWorkerError (plans pid) = none) :
    handleFlowControlSignal plans resolve (fuel + 1) (.bungee pid) st =
      bungeeSuccessDispatch plans resolve fuel (plans pid) st ∧
    (bungeeReentryFlag (plans pid) = true ↔
      ((plans pid).workerOutcomes ≠ [] ∧ (plans pid).returnToAnchor ≠ some false)) := by
  constructor
  · rw [handleFlowControlSignal]
    rw [show executeBungeePlanOutcome (plans pid) = .ok ((plans pid).onComplete.getD none) from by
      unfold executeBungeePlanOutcome
      rw [hw]]
    unfold bungeeSuccessDispatch
    cases (plans pid).onComplete.getD none with
    | some s => rfl
    | none => rfl
  · unfold bungeeReentryFlag
    simp [List.isEmpty_iff]

/-- Witness for C6 (amended) at the concrete plan with `onComplete` supplied.
-/
theorem bungee_completion_dispatch_amended_witness :
    handleFlowControlSignal plansC6W (fun _ => none) 2 (.bungee 0) stW =
      bungeeSuccessDispatch plansC6W (fun _ => none) 1 (plansC6W 0) stW ∧
    (bungeeReentryFlag (plansC6W 0) = true ↔
      ((plansC6W 0).workerOutcomes ≠ [] ∧ (plansC6W 0).returnToAnchor ≠ some false)) :=
  bungee_completion_dispatch_amended plansC6W (fun _ => none) 1 0 stW rfl

/-- C7 counterexample.  A plan with two throwing workers and default options
leaves the context with exactly one error entry under the fixed key
`bungee_error` — not one unique key per worker (the claim would require two
distinct keys). -/
theorem bungee_worker_error_key_cex :
    handleFlowControlSignal plansC7W (fun _ => none) 2 (.bungee 0) stW =
      .ok ({ currentStepIndex := 0, isRunning := false,
             context := [(bungeeErrorKey, "boom1".toList)],
             pendingReentry := ["anchor".toList] }, false) ∧
    ([(bungeeErrorKey, "boom1".toList)] : List (List Char × List Char)).length = 1 ∧
    (1 : Nat) ≠ 2 := by
  refine ⟨rfl, rfl, by decide⟩

/-- C7 (amended).  For a non-optimistic plan with a rejected worker (the
feasibility hypothesis restricts the scheduling oracle: a rejection can
surface at an in-loop race, or go unobserved after the cleanup dropped its
worker, only when the destination count reaches the concurrency cap): the
rejection reaches the run loop's catch when it surfaces at an in-loop
`Promise.race` — whose await is outside the executor's try, so it escapes
regardless of `failWizardOnFailure` — or at the `Promise.all` with
`failWizardOnFailure` not explicitly false; whenever it reaches the catch,
the error is recorded under the single fixed key `bungee_error` (shared by
all workers, not per-worker) and the run stops exactly when
`failWizardOnFailure` is not explicitly false.  Only a rejection surfacing
at the `Promise.all` with the flag explicitly false is swallowed inside the
executor (execution continues, nothing recorded); one whose worker was
dropped from the tracked set is never observed at all. -/
theorem bungee_worker_failure_policy_amended (plans : Nat → BungeePlanM)
    (resolve : List Char → Option Nat) (fuel pid : Nat) (st : RunState) (e : List Char)
    (he : firstWorkerError (plans pid) = some e)
    (hopt : (plans pid).optimistic = false)
    (_hfeas : (plans pid).surface ≠ .atAll →
      (plans pid).concurrency ≤ (plans pid).workerOutcomes.length) :
    handleFlowControlSignal plans resolve (fuel + 1) (.bungee pid) st =
      bungeeFailureDispatch plans resolve fuel (plans pid) st e := by
  rw [handleFlowControlSignal]
  rw [show executeBungeePlanOutcome (plans pid) =
      (if (plans pid).surface = .atRace ∨
          ((plans pid).surface = .atAll ∧ (plans pid).failWizardOnFailure ≠ some false)
       then Except.error e
       else .ok ((plans pid).onComplete.getD none)) from by
    unfold executeBungeePlanOutcome
    rw [he, hopt]
    cases hsurf : (plans pid).surface with
    | atRace => simp [hsurf]
    | unobserved => simp [hsurf]
    | atAll =>
      by_cases hflag : (plans pid).failWizardOnFailure ≠ some false
      · simp [hsurf, hflag]
      · simp [hsurf, hflag]]
  unfold bungeeFailureDispatch
  by_cases hcond : (plans pid).surface = .atRace ∨
      ((plans pid).surface = .atAll ∧ (plans pid).failWizardOnFailure ≠ some false)
  · simp only [if_pos hcond]
  · simp only [if_neg hcond]

/-- Witness for C7 (amended) at a plan at the concurrency cap whose
rejection settles during an in-loop race while `failWizardOnFailure` is
explicitly false: the error is recorded under `bungee_error` anyway. -/
theorem bungee_worker_failure_policy_amended_witness :
    handleFlowControlSignal plansC7R (fun _ => none) 2 (.bungee 0) stW =
      bungeeFailureDispatch plansC7R (fun _ => none) 1 (plansC7R 0) stW "boom1".toList :=
  bungee_worker_failure_policy_amended plansC7R (fun _ => none) 1 0 stW
    "boom1".toList rfl rfl (by decide)

/-- C8.  Repair-failure sentinel: when schema validation fails and the repair
round trip also fails to validate (either the repair call throws or the
repaired data fails revalidation), `generateStepData` returns the
`__validationFailed` sentinel value (it is a returned value, not a raised
exception: the function is total), and `executeStep` maps that sentinel to a
`RETRY` signal regardless of the step's update function. -/
theorem repair_failure_sentinel (validate : JsValue → Except (List Char) JsValue)
    (repairRoundTrip : List Char → JsValue → Except (List Char) JsValue)
    (latestResult : JsValue) (ve : List Char)
    (hv : validate latestResult = .error ve)
    (hr : ∀ r, repairRoundTrip ve latestResult = .ok r → ∃ e2, validate r = .error e2) :
    generateStepData validate repairRoundTrip latestResult = .sentinel ve ∧
    ∀ updateSignal, executeStepSignal
      (generateStepData validate repairRoundTrip latestResult) updateSignal = .retry := by
  have hsent : generateStepData validate repairRoundTrip latestResult = .sentinel ve := by
    unfold generateStepData
    rw [hv]
    show repairPhase validate repairRoundTrip latestResult ve = .sentinel ve
    unfold repairPhase
    cases hrt : repairRoundTrip ve latestResult with
    | error er => rfl
    | ok r =>
      show (match validate r with
        | Except.ok v => StepData.val v
        | Except.error _ => StepData.sentinel ve) = StepData.sentinel ve
      obtain ⟨e2, he2⟩ := hr r hrt
      rw [he2]
  refine ⟨hsent, ?_⟩
  intro updateSignal
  rw [hsent]
  rfl

/-- Witness for C8 with an always-failing validator and a repair that
returns a value failing revalidation. -/
theorem repair_failure_sentinel_witness :
    generateStepData valAlwaysBad repairOkNull jnull = .sentinel "bad".toList ∧
    ∀ updateSignal, executeStepSignal
      (generateStepData valAlwaysBad repairOkNull jnull) updateSignal = .retry :=
  repair_failure_sentinel valAlwaysBad repairOkNull jnull "bad".toList rfl
    (fun _ _ => ⟨"bad".toList, rfl⟩)

/-- C9.  Lenient array cleanup: for every array field content on which the
strict JSON parse fails but whose lenient cleanup (trailing-comma removal,
quote normalization, comment stripping) parses strictly to an array, the
array coercion returns exactly that array — in particular a JSON-like list
with a trailing comma parses to the listed elements without a trailing empty
entry. -/
theorem parseArray_lenient_cleanup (s : List Char) (a : List JsValue)
    (h1 : jsonParse (jsTrim s) = none)
    (h2 : jsonParse (lenientArrayFix (jsTrim s)) = some (jarr a)) :
    parseArray s = some a := by
  simp only [parseArray]
  rw [h1, h2]

/-- Witness for C9 at `["a", "b",]`. -/
theorem parseArray_lenient_cleanup_witness :
    parseArray arrayC9 = some [jstr "a".toList, jstr "b".toList] :=
  parseArray_lenient_cleanup arrayC9 [jstr "a".toList, jstr "b".toList] rfl rfl

/-- C10.  Container-marker strictness: the streaming parser recognizes the
container opening only as the exact literal `<response>` — for every chunk
sequence whose concatenated text lacks that literal (as when the container
tag carries attributes or whitespace, e.g. `<response >`), every push returns
null and the parser never enters the container — whereas the batch parser
accepts `<response` followed by optional whitespace before `>`, here shown on
the `<response >` payload. -/
theorem container_marker_strictness :
    (∀ cs : List (List Char), containsSub (concatL cs) respOpen = false →
      (∀ o ∈ (pushAll freshStreamState cs).2, o = PushOut.nullOut) ∧
      (pushAll freshStreamState cs).1.inResponse = false) ∧
    parseXmlToJsonTop payloadC10 = some [("name".toList, jstr "Ada".toList)] := by
  constructor
  · intro cs h
    constructor
    · have houts : (pushAll freshStreamState cs).2 = chunkOuts [] cs := by
        rw [show freshStreamState = stateOf [] from rfl, pushAll_stateOf]
      rw [houts]
      exact chunkOuts_nullOut [] cs (by simpa using h)
    · have hst : (pushAll freshStreamState cs).1 = stateOf (concatL cs) := by
        rw [show freshStreamState = stateOf [] from rfl, pushAll_stateOf]
        simp
      rw [hst]
      exact stateOf_not_inResponse _ h
  · rfl

/-- Witness for C10: the `<response >` payload fed in two chunks split at the
whitespace yields null on every push and never enters the container. -/
theorem container_marker_strictness_witness :
    (∀ o ∈ (pushAll freshStreamState [payloadC10a, payloadC10b]).2, o = PushOut.nullOut) ∧
    (pushAll freshStreamState [payloadC10a, payloadC10b]).1.inResponse = false :=
  container_marker_strictness.1 [payloadC10a, payloadC10b] (by decide)
